import Mathlib

/-!
Verification of the functional core of `src/bot.py` (a job-listing
notification bot): the paginated fetcher `get_vacancies`, the text
formatter `format_vacancy` / `clean_text`, the retrying sender
`send_message_with_retry`, the per-chat delivery loop `send_vacancies`
and the on-demand summary `daily_summary_command`.

Python values reaching these functions (parsed JSON) are embedded as the
inductive `PyVal`; Python exceptions are embedded as `Except String`
results; the global per-chat dictionaries `user_sent_vacancies` /
`user_daily_vacancies` are embedded as an explicit `ChatState` record
threaded through step functions.
-/

set_option maxHeartbeats 1000000

namespace Bot

/-! ## Fetcher: `get_vacancies` (src/bot.py lines 36-72)

A run of the external endpoint is embedded as the list of pages it
yields (each page the `items` array of one response).  The real loop
requests page after page; an exhausted `pages` list models a
transport failure at the next request (`requests.exceptions.RequestException`),
on which the code logs and breaks, returning what was accumulated. -/

/-- Loop body of `get_vacancies` (lines 51-70): accumulate each page's
items into `acc`; stop after a page when that page is short
(`len(items) < 99`) or the accumulated count has reached the 2000 limit.
Returns the accumulated list together with the number of pages consumed. -/
def getVacanciesAux {α : Type} : List (List α) → List α → List α × Nat
  | [], acc => (acc, 0)
  | items :: rest, acc =>
    let acc2 := acc ++ items
    if items.length < 99 ∨ 2000 ≤ acc2.length then (acc2, 1)
    else
      let r := getVacanciesAux rest acc2
      (r.1, r.2 + 1)

/-- `get_vacancies` (lines 36-72): run the page loop from an empty
accumulator and truncate to the 2000 limit (`vacancies[:VACANCY_LIMIT]`,
line 72). -/
def get_vacancies {α : Type} (pages : List (List α)) : List α :=
  ((getVacanciesAux pages []).1).take 2000

/-- Number of pages the loop in `get_vacancies` actually requests and
receives before stopping. -/
def pagesFetched {α : Type} (pages : List (List α)) : Nat :=
  (getVacanciesAux pages []).2

/-- The stop condition of the fetch loop, evaluated after consuming page
`j` (0-based): page `j` was short, or the accumulation through page `j`
has reached 2000. -/
def fetchStopCond {α : Type} (pages : List (List α)) (j : Nat) : Prop :=
  (pages.getD j []).length < 99 ∨ 2000 ≤ ((pages.take (j + 1)).flatten).length

instance {α : Type} (pages : List (List α)) (j : Nat) :
    Decidable (fetchStopCond pages j) := by
  unfold fetchStopCond; infer_instance

theorem getVacanciesAux_count_le {α : Type} (pages : List (List α)) :
    ∀ acc, (getVacanciesAux pages acc).2 ≤ pages.length := by
  induction pages with
  | nil => intro acc; simp [getVacanciesAux]
  | cons items rest ih =>
    intro acc
    by_cases h : items.length < 99 ∨ 2000 ≤ (acc ++ items).length
    · simp only [getVacanciesAux]
      rw [if_pos h]
      simp
    · simp only [getVacanciesAux]
      rw [if_neg h]
      simp only [List.length_cons]
      exact Nat.succ_le_succ (ih (acc ++ items))

theorem getVacanciesAux_count_eq_zero {α : Type} (pages : List (List α)) (acc : List α)
    (h : (getVacanciesAux pages acc).2 = 0) : pages = [] := by
  cases pages with
  | nil => rfl
  | cons items rest =>
    by_cases hc : items.length < 99 ∨ 2000 ≤ (acc ++ items).length
    · simp only [getVacanciesAux] at h
      rw [if_pos hc] at h
      simp at h
    · simp only [getVacanciesAux] at h
      rw [if_neg hc] at h
      simp at h

theorem getVacanciesAux_fst {α : Type} (pages : List (List α)) :
    ∀ acc, (getVacanciesAux pages acc).1 =
      acc ++ ((pages.take (getVacanciesAux pages acc).2).flatten) := by
  induction pages with
  | nil => intro acc; simp [getVacanciesAux]
  | cons items rest ih =>
    intro acc
    by_cases h : items.length < 99 ∨ 2000 ≤ (acc ++ items).length
    · simp only [getVacanciesAux]
      rw [if_pos h]
      simp
    · simp only [getVacanciesAux]
      rw [if_neg h]
      rw [ih (acc ++ items)]
      simp [List.take_succ_cons, List.flatten_cons, List.append_assoc]

theorem getVacanciesAux_continue {α : Type} (pages : List (List α)) :
    ∀ acc j, j + 1 < (getVacanciesAux pages acc).2 →
      ¬((pages.getD j []).length < 99 ∨
        2000 ≤ acc.length + ((pages.take (j + 1)).flatten).length) := by
  induction pages with
  | nil => intro acc j hj; simp [getVacanciesAux] at hj
  | cons items rest ih =>
    intro acc j hj
    by_cases h : items.length < 99 ∨ 2000 ≤ (acc ++ items).length
    · simp only [getVacanciesAux] at hj
      rw [if_pos h] at hj
      simp at hj
    · simp only [getVacanciesAux] at hj
      rw [if_neg h] at hj
      have hj' : j + 1 < (getVacanciesAux rest (acc ++ items)).2 + 1 := hj
      push_neg at h
      cases j with
      | zero =>
        simp only [List.getD_cons_zero, List.take_succ_cons, List.take_zero,
          List.flatten_cons, List.flatten_nil, List.append_nil]
        rw [List.length_append] at h
        push_neg
        exact ⟨h.1, by omega⟩
      | succ j =>
        have h2 := ih (acc ++ items) j (by omega)
        push_neg at h2
        clear hj hj'
        simp only [List.getD_cons_succ, List.take_succ_cons, List.flatten_cons,
          List.length_append]
        rw [List.length_append] at h2
        push_neg
        exact ⟨h2.1, by omega⟩

theorem getVacanciesAux_stop {α : Type} (pages : List (List α)) :
    ∀ acc, (getVacanciesAux pages acc).2 < pages.length →
      ((pages.getD ((getVacanciesAux pages acc).2 - 1) []).length < 99 ∨
        2000 ≤ acc.length + ((pages.take (getVacanciesAux pages acc).2).flatten).length) := by
  induction pages with
  | nil => intro acc h; simp [getVacanciesAux] at h
  | cons items rest ih =>
    intro acc h
    by_cases hc : items.length < 99 ∨ 2000 ≤ (acc ++ items).length
    · simp only [getVacanciesAux]
      rw [if_pos hc]
      show ((items :: rest).getD 0 []).length < 99 ∨
        2000 ≤ acc.length + (((items :: rest).take 1).flatten).length
      simp only [List.getD_cons_zero, List.take_succ_cons, List.take_zero,
        List.flatten_cons, List.flatten_nil, List.append_nil]
      rcases hc with hc | hc
      · exact Or.inl hc
      · rw [List.length_append] at hc
        exact Or.inr (by omega)
    · simp only [getVacanciesAux] at h ⊢
      rw [if_neg hc] at h ⊢
      have h' : (getVacanciesAux rest (acc ++ items)).2 + 1 < rest.length + 1 := h
      have hlt : (getVacanciesAux rest (acc ++ items)).2 < rest.length :=
        Nat.lt_of_succ_lt_succ h'
      have h3 := ih (acc ++ items) hlt
      show ((items :: rest).getD ((getVacanciesAux rest (acc ++ items)).2 + 1 - 1) []).length < 99 ∨
        2000 ≤ acc.length +
          (((items :: rest).take ((getVacanciesAux rest (acc ++ items)).2 + 1)).flatten).length
      rcases hr : (getVacanciesAux rest (acc ++ items)).2 with _ | k
      · exact absurd (getVacanciesAux_count_eq_zero rest (acc ++ items) hr)
          (by rw [hr] at hlt; exact List.ne_nil_of_length_pos (by omega))
      · rw [hr] at h3
        simp only [Nat.add_sub_cancel]
        simp only [Nat.add_sub_cancel] at h3
        simp only [List.getD_cons_succ, List.take_succ_cons, List.flatten_cons,
          List.length_append]
        rcases h3 with h3 | h3
        · exact Or.inl h3
        · rw [List.length_append] at h3
          exact Or.inr (by omega)

/-- C3: for every sequence of pages the endpoint yields, `get_vacancies`
returns at most 2000 listings; it requests further pages exactly while no
page was short (fewer than 99 items) and the accumulation stayed below
2000, and it truncates any excess (the result is the accumulation over
the fetched pages cut to 2000). -/
theorem C3_fetch_limit {α : Type} (pages : List (List α)) :
    (get_vacancies pages).length ≤ 2000 ∧
    pagesFetched pages ≤ pages.length ∧
    get_vacancies pages = ((pages.take (pagesFetched pages)).flatten).take 2000 ∧
    (∀ j, j + 1 < pagesFetched pages → ¬ fetchStopCond pages j) ∧
    (pagesFetched pages < pages.length → fetchStopCond pages (pagesFetched pages - 1)) := by
  refine ⟨?_, getVacanciesAux_count_le pages [], ?_, ?_, ?_⟩
  · exact List.length_take_le 2000 _
  · unfold get_vacancies pagesFetched
    rw [getVacanciesAux_fst pages []]
    simp
  · intro j hj
    have h := getVacanciesAux_continue pages [] j hj
    unfold fetchStopCond
    simpa using h
  · intro hlt
    have hne : pagesFetched pages ≠ 0 := by
      intro h0
      have hnil := getVacanciesAux_count_eq_zero pages [] h0
      rw [hnil] at hlt
      simp [pagesFetched, getVacanciesAux] at hlt
    have h := getVacanciesAux_stop pages [] hlt
    unfold fetchStopCond
    have hsub : pagesFetched pages - 1 + 1 = pagesFetched pages := by omega
    rw [hsub]
    simpa using h

/-- Witness for C3 at a concrete run: a single short page of three items
(the loop stops after it, fetching one page of a two-page stream). -/
theorem C3_fetch_limit_witness :
    (get_vacancies [[1, 2, 3], [4]]).length ≤ 2000 ∧ fetchStopCond [[1, 2, 3], [4]] 0 :=
  ⟨(C3_fetch_limit [[1, 2, 3], [4]]).1,
    (C3_fetch_limit [[1, 2, 3], [4]]).2.2.2.2 (by decide)⟩

/-! ## Python values

Parsed-JSON values flowing through `format_vacancy` and `send_vacancies`.
Python exceptions (`AttributeError` on `.get` of a non-dict, `TypeError`
on `re.sub` of a non-string) are embedded as `Except.error`. -/

inductive PyVal : Type where
  | none : PyVal
  | str (s : String) : PyVal
  | int (n : Int) : PyVal
  | dict (kvs : List (String × PyVal)) : PyVal

/-- Python truthiness for the embedded values: `None`, `""`, `0` and
`{}` are falsy, everything else truthy. -/
def PyVal.truthy : PyVal → Bool
  | .none => false
  | .str s => !(s == "")
  | .int n => !(n == 0)
  | .dict kvs => !kvs.isEmpty

/-- First-match association lookup; JSON objects have unique keys, so
this is dict lookup. -/
def lookupKey (kvs : List (String × PyVal)) (k : String) : Option PyVal :=
  match kvs with
  | [] => Option.none
  | (k2, v) :: rest => if k2 = k then some v else lookupKey rest k

/-- Python `v.get(k, d)`: the stored value when the key is present (even
when that value is `None`), the default when absent; `AttributeError`
when the receiver is not a dict. -/
def pyGet (v : PyVal) (k : String) (d : PyVal) : Except String PyVal :=
  match v with
  | .dict kvs =>
    match lookupKey kvs k with
    | some x => .ok x
    | Option.none => .ok d
  | _ => .error "AttributeError"

/-- Rendering of a value inside an f-string (`str()`): `None` renders as
the four characters `None`.  (The repr of a dict is abbreviated here; no
claim depends on it.) -/
def pyStr : PyVal → String
  | .none => "None"
  | .str s => s
  | .int n => toString n
  | .dict _ => "<dict>"

/-! ## Formatter: `clean_text` (lines 75-79) and `format_vacancy`
(lines 82-105) -/

/-- Scan for the first `'>'`: `some rest` is everything after it, `none`
when there is no `'>'`.  This is how the regex `<[^>]*>` matches: from a
`'<'`, the match extends exactly to the first following `'>'`. -/
def dropThroughGt : List Char → Option (List Char)
  | [] => Option.none
  | c :: cs => if c = '>' then some cs else dropThroughGt cs

theorem dropThroughGt_length :
    ∀ (cs rest : List Char), dropThroughGt cs = some rest → rest.length < cs.length := by
  intro cs
  induction cs with
  | nil => intro rest h; simp [dropThroughGt] at h
  | cons c cs ih =>
    intro rest h
    by_cases hc : c = '>'
    · simp [dropThroughGt, hc] at h
      rw [← h]
      simp
    · simp only [dropThroughGt, if_neg hc] at h
      exact Nat.lt_succ_of_lt (ih rest h)

/-- Recursion core of the tag stripper, structural on a fuel bound (the
fuel never runs out when it starts at the list's length, see
`stripTagsAux_fuel`). -/
def stripTagsAux : Nat → List Char → List Char
  | _, [] => []
  | 0, l => l
  | fuel + 1, c :: cs =>
    if c = '<' then
      match dropThroughGt cs with
      | some rest => stripTagsAux fuel rest
      | Option.none => c :: cs
    else c :: stripTagsAux fuel cs

/-- `re.sub(r"<[^>]*>", "", text)` (line 79): left-to-right scan; at each
`'<'` that has a later `'>'`, drop through that first `'>'` and continue;
a `'<'` with no later `'>'` starts no match (and then nothing later can
match either, so the remainder is kept verbatim). -/
def stripTags (l : List Char) : List Char := stripTagsAux l.length l

theorem stripTagsAux_fuel :
    ∀ (n : Nat) (l : List Char), l.length ≤ n → stripTagsAux n l = stripTags l := by
  intro n
  induction n using Nat.strong_induction_on with
  | _ n ih =>
    intro l hl
    cases l with
    | nil => cases n <;> rfl
    | cons c cs =>
      cases n with
      | zero => simp at hl
      | succ n =>
        simp only [List.length_cons, Nat.add_le_add_iff_right] at hl
        by_cases hc : c = '<'
        · subst hc
          show stripTagsAux (n + 1) ('<' :: cs) = stripTagsAux (cs.length + 1) ('<' :: cs)
          cases hd : dropThroughGt cs with
          | none => simp [stripTagsAux, hd]
          | some rest =>
            have hrest := dropThroughGt_length cs rest hd
            have e1 : stripTagsAux (n + 1) ('<' :: cs) = stripTagsAux n rest := by
              simp [stripTagsAux, hd]
            have e2 : stripTagsAux (cs.length + 1) ('<' :: cs) = stripTagsAux cs.length rest := by
              simp [stripTagsAux, hd]
            rw [e1, e2, ih n (by omega) rest (by omega),
              ih cs.length (by omega) rest (by omega)]
        · show stripTagsAux (n + 1) (c :: cs) = stripTagsAux (cs.length + 1) (c :: cs)
          simp only [stripTagsAux, if_neg hc]
          rw [ih n (by omega) cs (by omega), ih cs.length (by omega) cs (by omega)]

theorem stripTags_nil : stripTags [] = [] := rfl

theorem stripTags_cons_ne (c : Char) (cs : List Char) (h : c ≠ '<') :
    stripTags (c :: cs) = c :: stripTags cs := by
  have e : stripTagsAux (cs.length + 1) (c :: cs) = c :: stripTagsAux cs.length cs := by
    simp [stripTagsAux, h]
  show stripTagsAux (cs.length + 1) (c :: cs) = _
  rw [e, stripTagsAux_fuel cs.length cs (Nat.le_refl _)]

theorem stripTags_cons_some (cs rest : List Char) (h : dropThroughGt cs = some rest) :
    stripTags ('<' :: cs) = stripTags rest := by
  have e : stripTagsAux (cs.length + 1) ('<' :: cs) = stripTagsAux cs.length rest := by
    simp [stripTagsAux, h]
  show stripTagsAux (cs.length + 1) ('<' :: cs) = _
  rw [e]
  exact stripTagsAux_fuel cs.length rest (Nat.le_of_lt (dropThroughGt_length cs rest h))

theorem stripTags_cons_none (cs : List Char) (h : dropThroughGt cs = Option.none) :
    stripTags ('<' :: cs) = '<' :: cs := by
  have e : stripTagsAux (cs.length + 1) ('<' :: cs) = '<' :: cs := by
    simp [stripTagsAux, h]
  exact e

/-- The whitespace set of Python `str.strip()` (restricted to its ASCII
members, the only ones arising here). -/
def isPySpace (c : Char) : Bool :=
  c = ' ' || c = '\t' || c = '\n' || c = '\r' || c = '\x0b' || c = '\x0c'

/-- Python `str.strip()`: drop leading and trailing whitespace. -/
def trimWs (l : List Char) : List Char :=
  ((l.dropWhile isPySpace).reverse.dropWhile isPySpace).reverse

/-- `clean_text` (lines 75-79): `re.sub(r"<[^>]*>", "", text).strip() if
text else ''`.  The truthiness test runs first; a truthy non-string would
make `re.sub` raise `TypeError`. -/
def clean_text (t : PyVal) : Except String String :=
  if t.truthy then
    match t with
    | .str s => .ok (String.mk (trimWs (stripTags s.data)))
    | _ => .error "TypeError"
  else .ok ""

/-- Line 86: `vacancy.get('name', 'Не указано')`. -/
def getName (v : PyVal) : Except String PyVal :=
  pyGet v "name" (.str "Не указано")

/-- Line 87: `salary = vacancy.get('salary', {})`. -/
def getSalary (v : PyVal) : Except String PyVal :=
  pyGet v "salary" (.dict [])

/-- Line 88: `salary.get('from', 'Не указана') if salary else 'Не указана'`. -/
def getSalaryFrom (v : PyVal) : Except String PyVal :=
  match getSalary v with
  | .error e => .error e
  | .ok s => if s.truthy then pyGet s "from" (.str "Не указана") else .ok (.str "Не указана")

/-- Line 89: `salary.get('to', 'Не указана') if salary else 'Не указана'`. -/
def getSalaryTo (v : PyVal) : Except String PyVal :=
  match getSalary v with
  | .error e => .error e
  | .ok s => if s.truthy then pyGet s "to" (.str "Не указана") else .ok (.str "Не указана")

/-- Line 90: `vacancy.get('area', {}).get('name', 'Не указан')`. -/
def getArea (v : PyVal) : Except String PyVal :=
  match pyGet v "area" (.dict []) with
  | .error e => .error e
  | .ok a => pyGet a "name" (.str "Не указан")

/-- Line 91: `vacancy.get('employer', {}).get('name', 'Не указана')`. -/
def getEmployer (v : PyVal) : Except String PyVal :=
  match pyGet v "employer" (.dict []) with
  | .error e => .error e
  | .ok a => pyGet a "name" (.str "Не указана")

/-- Line 92: `vacancy.get('schedule', {}).get('name', 'Не указано')`. -/
def getSchedule (v : PyVal) : Except String PyVal :=
  match pyGet v "schedule" (.dict []) with
  | .error e => .error e
  | .ok a => pyGet a "name" (.str "Не указано")

/-- Lines 94-96: `snippet = vacancy.get('snippet', {})`, then
`description = clean_text(snippet.get('responsibility', 'Описание
отсутствует.'))`. -/
def getDescription (v : PyVal) : Except String String :=
  match pyGet v "snippet" (.dict []) with
  | .error e => .error e
  | .ok sn =>
    match pyGet sn "responsibility" (.str "Описание отсутствует.") with
    | .error e => .error e
    | .ok d => clean_text d

/-- Line 105 (inside the f-string): `vacancy.get('alternate_url', '#')`. -/
def getUrl (v : PyVal) : Except String PyVal :=
  pyGet v "alternate_url" (.str "#")

/-- `format_vacancy` (lines 82-105): extract every field in source order,
then assemble the fixed multi-line template. -/
def format_vacancy (v : PyVal) : Except String String := do
  let name ← getName v
  let sFrom ← getSalaryFrom v
  let sTo ← getSalaryTo v
  let area ← getArea v
  let employer ← getEmployer v
  let schedule ← getSchedule v
  let description ← getDescription v
  let url ← getUrl v
  pure ("🔹 *" ++ pyStr name ++ "*\n💼 Компания: " ++ pyStr employer ++
    "\n💰 Зарплата: от " ++ pyStr sFrom ++ " до " ++ pyStr sTo ++
    " руб.\n📍 Город: " ++ pyStr area ++ "\n🕒 Формат работы: " ++ pyStr schedule ++
    "\n✍️ Описание:\n" ++ description ++ "\n🔗 [Подробнее](" ++ pyStr url ++ ")")

/-! ## C6: missing salary rendering -/

/-- The salary shapes on which lines 87-89 reach the placeholder: the
`salary` key absent, or mapped to a falsy value (null / empty dict /
empty string / zero), or mapped to a truthy dict that lacks the bound
keys altogether. -/
def salaryMissingShape : Option PyVal → Bool
  | Option.none => true
  | some s =>
    if s.truthy then
      match s with
      | .dict skvs => (lookupKey skvs "from").isNone && (lookupKey skvs "to").isNone
      | _ => false
    else true

/-- A listing whose salary object is present and truthy with a null
`from` bound (the shape HH delivers as `"from": null`). -/
def vacancyNullBound : PyVal :=
  .dict [("salary", .dict [("from", PyVal.none), ("to", PyVal.int 50000)])]

/-- C6 counterexample: for a listing whose salary object is present with
a null `from` bound — one of the "missing in any shape" cases of the
claim — the lower bound extracted by `format_vacancy` is Python `None`,
rendered as the text `None`, not the "not specified" placeholder. -/
theorem C6_null_bound_counterexample :
    getSalaryFrom vacancyNullBound = .ok PyVal.none ∧
    pyStr PyVal.none = "None" ∧ "None" ≠ "Не указана" :=
  ⟨rfl, rfl, by decide⟩

/-- C6 (amended): when the `salary` key is absent, or maps to a falsy
value, or maps to a truthy dict lacking the `from`/`to` keys, both
bounds extracted by `format_vacancy` are the placeholder string, and the
salary extraction raises no error.  (A bound key present with a null
value instead yields `None`, see the counterexample.) -/
theorem C6_missing_salary_placeholder (kvs : List (String × PyVal))
    (h : salaryMissingShape (lookupKey kvs "salary") = true) :
    getSalaryFrom (.dict kvs) = .ok (.str "Не указана") ∧
    getSalaryTo (.dict kvs) = .ok (.str "Не указана") := by
  cases hl : lookupKey kvs "salary" with
  | none =>
    have hgs : getSalary (.dict kvs) = .ok (.dict []) := by simp [getSalary, pyGet, hl]
    constructor
    · simp [getSalaryFrom, hgs, PyVal.truthy]
    · simp [getSalaryTo, hgs, PyVal.truthy]
  | some s =>
    have hgs : getSalary (.dict kvs) = .ok s := by simp [getSalary, pyGet, hl]
    rw [hl] at h
    by_cases ht : s.truthy = true
    · cases s with
      | dict skvs =>
        simp only [salaryMissingShape, ht, if_true, Bool.and_eq_true,
          Option.isNone_iff_eq_none] at h
        obtain ⟨hf, hto⟩ := h
        constructor
        · simp [getSalaryFrom, hgs, ht, pyGet, hf]
        · simp [getSalaryTo, hgs, ht, pyGet, hto]
      | none => simp [PyVal.truthy] at ht
      | str s2 => simp [salaryMissingShape, ht] at h
      | int n => simp [salaryMissingShape, ht] at h
    · constructor
      · simp [getSalaryFrom, hgs, ht]
      · simp [getSalaryTo, hgs, ht]

/-- Witness for the amended C6 at a concrete listing with no `salary`
key at all. -/
theorem C6_missing_salary_placeholder_witness :
    salaryMissingShape (lookupKey [("name", PyVal.str "x")] "salary") = true ∧
    getSalaryFrom (.dict [("name", PyVal.str "x")]) = .ok (.str "Не указана") ∧
    getSalaryTo (.dict [("name", PyVal.str "x")]) = .ok (.str "Не указана") :=
  ⟨rfl, (C6_missing_salary_placeholder [("name", PyVal.str "x")] rfl).1,
    (C6_missing_salary_placeholder [("name", PyVal.str "x")] rfl).2⟩

/-! ## C7: description rendering -/

/-- A listing whose snippet carries an empty-string responsibility. -/
def vacancyEmptyDesc : PyVal :=
  .dict [("snippet", .dict [("responsibility", PyVal.str "")])]

/-- C7 counterexample: an empty (present) description renders as the
empty string, not as the fixed placeholder — `clean_text('')` takes the
falsy branch and returns `''`, so "placeholder whenever the description
is empty or missing" fails on the empty case. -/
theorem C7_empty_desc_counterexample :
    getDescription vacancyEmptyDesc = .ok "" ∧ "" ≠ "Описание отсутствует." :=
  ⟨rfl, by decide⟩

theorem clean_text_str (s : String) :
    clean_text (.str s) = .ok (if s = "" then "" else String.mk (trimWs (stripTags s.data))) := by
  by_cases h : s = ""
  · subst h; rfl
  · have ht : (PyVal.str s).truthy = true := by
      simp [PyVal.truthy]
      exact h
    simp [clean_text, ht, h]

/-- C7 (amended): the description `format_vacancy` renders is the
responsibility text with every `<...>`-delimited substring removed and
surrounding whitespace trimmed; the fixed placeholder appears exactly
when the `responsibility` key (or the whole snippet) is missing, while
an empty or null responsibility renders as the empty string, not the
placeholder.  The last conjunct is the tag-removal law itself: a
delimited substring whose opener is the first `'<'` and whose body has
no `'>'` is deleted wholesale. -/
theorem C7_description_rendering (kvs skvs : List (String × PyVal)) (s : String) :
    (lookupKey kvs "snippet" = Option.none →
      getDescription (.dict kvs) = .ok "Описание отсутствует.") ∧
    (lookupKey kvs "snippet" = some (.dict skvs) →
      (lookupKey skvs "responsibility" = Option.none →
        getDescription (.dict kvs) = .ok "Описание отсутствует.") ∧
      (lookupKey skvs "responsibility" = some PyVal.none →
        getDescription (.dict kvs) = .ok "") ∧
      (lookupKey skvs "responsibility" = some (.str s) →
        getDescription (.dict kvs) =
          .ok (if s = "" then "" else String.mk (trimWs (stripTags s.data))))) ∧
    (∀ (a b c : List Char), '<' ∉ a → '>' ∉ b →
      stripTags (a ++ '<' :: (b ++ '>' :: c)) = a ++ stripTags c) := by
  refine ⟨?_, ?_, ?_⟩
  · intro h
    simp [getDescription, pyGet, h, lookupKey]
    rfl
  · intro h
    refine ⟨?_, ?_, ?_⟩
    · intro h2
      simp [getDescription, pyGet, h, h2]
      rfl
    · intro h2
      simp [getDescription, pyGet, h, h2]
      rfl
    · intro h2
      simp [getDescription, pyGet, h, h2, clean_text_str]
  · intro a b c ha hb
    induction a with
    | nil =>
      simp only [List.nil_append]
      have hd : dropThroughGt (b ++ '>' :: c) = some c := by
        clear ha
        induction b with
        | nil => simp [dropThroughGt]
        | cons x xs ihb =>
          have hx : x ≠ '>' := fun hx => hb (by simp [hx])
          simp only [List.cons_append, dropThroughGt, if_neg hx]
          exact ihb (fun hmem => hb (List.mem_cons_of_mem _ hmem))
      exact stripTags_cons_some _ c hd
    | cons x xs ih =>
      have hx : x ≠ '<' := fun hx => ha (by simp [hx])
      simp only [List.cons_append]
      rw [stripTags_cons_ne x _ hx, ih (fun hmem => ha (List.mem_cons_of_mem _ hmem))]

/-- Witness for the amended C7: a concrete listing whose responsibility
is `" <b>Work</b> with chats "`; the rendered description is `Work with
chats` — tags gone, whitespace trimmed — and the tag-removal law applied
at a concrete split. -/
theorem C7_description_rendering_witness :
    getDescription (.dict [("snippet", .dict [("responsibility",
        PyVal.str " <b>Work</b> with chats ")])]) = .ok "Work with chats" ∧
    stripTags (['a'] ++ '<' :: (['b'] ++ '>' :: ['c'])) = ['a'] ++ stripTags ['c'] := by
  constructor
  · have h := (C7_description_rendering
      [("snippet", PyVal.dict [("responsibility", PyVal.str " <b>Work</b> with chats ")])]
      [("responsibility", PyVal.str " <b>Work</b> with chats ")]
      " <b>Work</b> with chats ").2.1 rfl
    have h2 := h.2.2 rfl
    rw [h2]
    exact congrArg Except.ok (by decide)
  · exact (C7_description_rendering [] [] "").2.2 ['a'] ['b'] ['c']
      (by decide) (by decide)

/-! ## Retrying sender: `send_message_with_retry` (lines 108-124)

The chat platform is embedded as the list of outcomes successive
`bot.send_message` calls would produce: `none` for success, `some detail`
for an exception whose `str(e)` is `detail`.  The loop is driven along
that list; an exhausted list means the loop would keep retrying
(`pending`). -/

/-- Python `needle in hay` on strings. -/
def containsSub (needle hay : List Char) : Bool :=
  hay.tails.any (fun t => needle.isPrefixOf t)

/-- First occurrence of `needle` in `hay`: `some (before, after)` with
`hay = before ++ needle ++ after` at the leftmost match, else `none`. -/
def findSub (needle : List Char) : List Char → Option (List Char × List Char)
  | [] => if needle.isPrefixOf ([] : List Char) then some ([], []) else Option.none
  | c :: cs =>
    if needle.isPrefixOf (c :: cs) then some ([], (c :: cs).drop needle.length)
    else (findSub needle cs).map (fun p => (c :: p.1, p.2))

/-- Element `[1]` of Python `hay.split(needle)`: the piece between the
first and second occurrence of the separator; `none` when the separator
does not occur (`[1]` then raises `IndexError`). -/
def splitSecondPiece (needle hay : List Char) : Option (List Char) :=
  match findSub needle hay with
  | Option.none => Option.none
  | some p =>
    match findSub needle p.2 with
    | Option.none => some p.2
    | some q => some q.1

/-- Element `[0]` of Python `s.split()`: the first maximal run of
non-whitespace characters, `none` when there is none (then `[0]` raises
`IndexError`). -/
def firstToken (l : List Char) : Option (List Char) :=
  let l1 := l.dropWhile isPySpace
  if l1.isEmpty then Option.none else some (l1.takeWhile (fun c => !isPySpace c))

/-- Decimal digit-string value (the shapes `int()` receives here are
plain ASCII decimals; Python's further liberality — underscores, unicode
digits — never arises from Telegram's flood-control text). -/
def digitsVal (ds : List Char) : Option Nat :=
  if ds.isEmpty then Option.none
  else if ds.all (fun c => c.isDigit) then
    some (ds.foldl (fun acc c => acc * 10 + (c.toNat - 48)) 0)
  else Option.none

/-- Python `int(tok)` for a whitespace-free token: optional sign then
decimal digits, `ValueError` (`none`) otherwise. -/
def pyIntParse : List Char → Option Int
  | '-' :: ds => (digitsVal ds).map (fun n => -(n : Int))
  | '+' :: ds => (digitsVal ds).map (fun n => (n : Int))
  | ds => (digitsVal ds).map (fun n => (n : Int))

def floodNeedle : List Char := "Flood control exceeded".data

def retryNeedle : List Char := "Retry in".data

/-- Line 119: `int(error_message.split("Retry in")[1].strip().split()[0])`.
A missing separator or an all-whitespace middle piece raises `IndexError`;
a non-numeric token raises `ValueError`. -/
def parseRetryAfter (msg : String) : Except String Int :=
  match splitSecondPiece retryNeedle msg.data with
  | Option.none => .error "IndexError"
  | some seg =>
    match firstToken (trimWs seg) with
    | Option.none => .error "IndexError"
    | some tok =>
      match pyIntParse tok with
      | some n => .ok n
      | Option.none => .error "ValueError"

/-- How one `send_message_with_retry` call ends: message delivered,
message abandoned after a non-flood failure (logged, line 123-124),
a parse exception escaping to the caller (line 119), or still retrying
when the modeled attempt list runs out. -/
inductive RetryOutcome : Type where
  | delivered : RetryOutcome
  | dropped (detail : String) : RetryOutcome
  | raised (err : String) : RetryOutcome
  | pending : RetryOutcome
deriving DecidableEq

/-- Whether the outcome is an exception escaping `send_message_with_retry`. -/
def RetryOutcome.propagates : RetryOutcome → Bool
  | .raised _ => true
  | _ => false

/-- `send_message_with_retry` (lines 108-124) along a list of send
outcomes.  Returns the sleeps performed (each `retry_after + 1`), the
number of `send_message` calls, and the final outcome. -/
def send_message_with_retry : List (Option String) → List Int × Nat × RetryOutcome
  | [] => ([], 0, .pending)
  | Option.none :: _ => ([], 1, .delivered)
  | some detail :: rest =>
    if containsSub floodNeedle detail.data then
      match parseRetryAfter detail with
      | .ok n =>
        let r := send_message_with_retry rest
        ((n + 1) :: r.1, r.2.1 + 1, r.2.2)
      | .error e => ([], 1, .raised e)
    else ([], 1, .dropped detail)

/-- C4 counterexample: a failure whose detail contains the flood-control
indicator but no parseable `Retry in N` is neither retried nor silently
dropped — the `IndexError` from the parse escapes to the caller, against
the claim that no non-(recognized-and-parseable) failure propagates. -/
theorem C4_unparseable_flood_counterexample :
    send_message_with_retry [some "Flood control exceeded"] =
      ([], 1, RetryOutcome.raised "IndexError") ∧
    (RetryOutcome.raised "IndexError").propagates = true := by
  constructor <;> decide

/-- C4 (amended): a failure detail containing the flood-control
indicator with parseable cooldown `n` sleeps `n + 1` and retries (so the
loop runs indefinitely while such failures repeat, never giving up); a
failure without the indicator is logged and abandoned with no retry and
no exception; a failure with the indicator but no parseable cooldown
raises to the caller (see the counterexample); and on the concrete
parseable value 3 the sender sleeps 4 and calls send twice. -/
theorem C4_retry_behavior :
    (∀ (detail : String) (rest : List (Option String)) (n : Int),
      containsSub floodNeedle detail.data = true →
      parseRetryAfter detail = .ok n →
      send_message_with_retry (some detail :: rest) =
        ((n + 1) :: (send_message_with_retry rest).1,
          (send_message_with_retry rest).2.1 + 1,
          (send_message_with_retry rest).2.2)) ∧
    (∀ (detail : String) (rest : List (Option String)),
      containsSub floodNeedle detail.data = false →
      send_message_with_retry (some detail :: rest) = ([], 1, .dropped detail)) ∧
    (∀ (attempts : List (Option String)),
      (∀ a ∈ attempts, ∃ d n, a = some d ∧ containsSub floodNeedle d.data = true ∧
        parseRetryAfter d = .ok n) →
      (send_message_with_retry attempts).2.2 = .pending ∧
      (send_message_with_retry attempts).2.1 = attempts.length) ∧
    send_message_with_retry [some "Flood control exceeded. Retry in 3 seconds", Option.none] =
      ([4], 2, .delivered) := by
  refine ⟨?_, ?_, ?_, by decide⟩
  · intro detail rest n h1 h2
    simp [send_message_with_retry, h1, h2]
  · intro detail rest h1
    simp [send_message_with_retry, h1]
  · intro attempts h
    induction attempts with
    | nil => exact ⟨rfl, rfl⟩
    | cons a rest ih =>
      obtain ⟨d, n, ha, hf, hp⟩ := h a (List.mem_cons_self a rest)
      subst ha
      have ih2 := ih (fun b hb => h b (List.mem_cons_of_mem _ hb))
      constructor
      · simp [send_message_with_retry, hf, hp, ih2.1]
      · simp [send_message_with_retry, hf, hp, ih2.2]

/-- Witness for the amended C4: a concrete flood-control failure with
cooldown 5 sleeps 6 and keeps going. -/
theorem C4_retry_behavior_witness :
    send_message_with_retry [some "Flood control exceeded. Retry in 5 seconds"] =
      ([6], 1, .pending) := by
  have h := C4_retry_behavior.1 "Flood control exceeded. Retry in 5 seconds" [] 5
    (by decide) rfl
  exact h.trans (by decide)

/-! ## Per-chat state and the delivery loop: `send_vacancies` (lines 127-157)

`user_sent_vacancies[chat_id]` / `user_daily_vacancies[chat_id]` are the
two per-chat structures; all operations of `send_vacancies` touch only
one chat's entries, so the state is modeled per chat.  A Python `set` is
embedded as its insertion-ordered element list (`addId` refuses
duplicates, so the length is the cardinality); the summary dict as an
insertion-ordered association list (Python dicts preserve insertion
order, which the summary sort's tie-breaking depends on). -/

/-- One fetched listing as `send_vacancies` consumes it: `v['id']`
(HH always delivers it; a record without it would raise `KeyError`
inside the filter comprehension, before any state change) and the raw
record used for the employer lookup and `format_vacancy`. -/
structure Listing where
  id : String
  body : PyVal

/-- Line 146: `vacancy.get('employer', {}).get('name', 'Не указано')`,
rendered to the string used as the counts key. -/
def companyOf (v : Listing) : Except String String :=
  match pyGet v.body "employer" (.dict []) with
  | .error e => .error e
  | .ok a =>
    match pyGet a "name" (.str "Не указано") with
    | .error e => .error e
    | .ok c => .ok (pyStr c)

/-- The two per-chat structures of lines 32-33 for one chat. -/
structure ChatState where
  sentIds : List String
  counts : List (String × Nat)

/-- Lines 134-136: a first-seen chat starts with an empty set and dict. -/
def initialChatState : ChatState := ⟨[], []⟩

/-- Python `set.add`: append only when absent (keeps the list duplicate
free, so its length is the set's cardinality). -/
def addId (l : List String) (id : String) : List String :=
  if id ∈ l then l else l ++ [id]

/-- Line 147: `d[company] = d.get(company, 0) + 1` — bump in place,
append a new key at the end. -/
def bumpCount : List (String × Nat) → String → List (String × Nat)
  | [], c => [(c, 1)]
  | (k, n) :: rest, c =>
    if k = c then (k, n + 1) :: rest else (k, n) :: bumpCount rest c

/-- Total of the per-employer counters. -/
def sumCounts (l : List (String × Nat)) : Nat := (l.map Prod.snd).sum

/-- Line 142: `[v for v in vacancies if v['id'] not in
user_sent_vacancies[chat_id]]`. -/
def uniqueVacancies (s : ChatState) (fetched : List Listing) : List Listing :=
  fetched.filter (fun v => v.id ∉ s.sentIds)

/-- The recording loop, lines 144-147: add the id to the set, then look
up the employer (which can raise mid-loop, after the id was added but
before the counter bump — the exception is caught at line 156, so the
partial state stays committed and no batch is sent).  Returns the final
state, the listings processed, and the raised error if any. -/
def recordLoop : ChatState → List Listing → ChatState × List Listing × Option String
  | s, [] => (s, [], Option.none)
  | s, v :: vs =>
    let s1 : ChatState := ⟨addId s.sentIds v.id, s.counts⟩
    match companyOf v with
    | .error e => (s1, [v], some e)
    | .ok c =>
      let s2 : ChatState := ⟨s1.sentIds, bumpCount s1.counts c⟩
      let r := recordLoop s2 vs
      (r.1, v :: r.2.1, r.2.2)

/-- Recursion core of the batch splitter, structural on a fuel bound
(the fuel never runs out when it starts at the list's length, see
`chunkEveryAux_fuel`). -/
def chunkEveryAux {α : Type} (n : Nat) : Nat → List α → List (List α)
  | _, [] => []
  | 0, l => [l]
  | fuel + 1, x :: xs => (x :: xs.take (n - 1)) :: chunkEveryAux n fuel (xs.drop (n - 1))

/-- Python `[l[i:i+n] for i in range(0, len(l), n)]`: consecutive slices
of size `n`, last one possibly shorter (line 150-151 with `n = 5`,
line 183 with `n = 4000`). -/
def chunkEvery {α : Type} (n : Nat) (l : List α) : List (List α) :=
  chunkEveryAux n l.length l

theorem chunkEveryAux_fuel {α : Type} (n : Nat) :
    ∀ (m : Nat) (l : List α), l.length ≤ m → chunkEveryAux n m l = chunkEvery n l := by
  intro m
  induction m using Nat.strong_induction_on with
  | _ m ih =>
    intro l hl
    cases l with
    | nil => cases m <;> rfl
    | cons x xs =>
      cases m with
      | zero => simp at hl
      | succ m =>
        simp only [List.length_cons, Nat.add_le_add_iff_right] at hl
        show (x :: xs.take (n - 1)) :: chunkEveryAux n m (xs.drop (n - 1)) =
          (x :: xs.take (n - 1)) :: chunkEveryAux n xs.length (xs.drop (n - 1))
        have hd : (xs.drop (n - 1)).length ≤ xs.length := by
          simp [List.length_drop]
        rw [ih m (by omega) _ (by omega), ih xs.length (by omega) _ (by omega)]

theorem chunkEvery_cons {α : Type} (n : Nat) (x : α) (xs : List α) :
    chunkEvery n (x :: xs) =
      (x :: xs.take (n - 1)) :: chunkEvery n (xs.drop (n - 1)) := by
  show chunkEveryAux n (xs.length + 1) (x :: xs) = _
  show (x :: xs.take (n - 1)) :: chunkEveryAux n xs.length (xs.drop (n - 1)) = _
  rw [chunkEveryAux_fuel n xs.length _ (by simp [List.length_drop])]

/-- Events one `send_vacancies` invocation emits, in order: state
recordings (lines 145-147), messages handed to the retrying sender
(line 153), the fixed pauses (line 154), or an escaped exception
reaching the `except` of line 156. -/
inductive TraceEv : Type where
  | record (id : String) : TraceEv
  | send (message : String) : TraceEv
  | sleep (seconds : Nat) : TraceEv
  | raise (err : String) : TraceEv
deriving DecidableEq

/-- Formatter results for a batch, in order, stopping at the first
error — the generator inside `"\n\n".join(...)` at line 152 is fully
evaluated before the send. -/
def formatAll : List PyVal → Except String (List String)
  | [] => .ok []
  | v :: vs =>
    match format_vacancy v with
    | .error e => .error e
    | .ok s =>
      match formatAll vs with
      | .error e => .error e
      | .ok rest => .ok (s :: rest)

/-- Line 152: `"\n\n".join(format_vacancy(v) for v in batch)`. -/
def batchMessage (b : List Listing) : Except String String :=
  match formatAll (b.map Listing.body) with
  | .error e => .error e
  | .ok parts => .ok (String.intercalate "\n\n" parts)

/-- Lines 150-154: per batch, build the joined message, hand it to the
retrying sender, sleep 2; a formatter error aborts the loop (caught at
line 156). -/
def sendBatchesTrace : List (List Listing) → List TraceEv
  | [] => []
  | b :: bs =>
    match batchMessage b with
    | .ok m => TraceEv.send m :: TraceEv.sleep 2 :: sendBatchesTrace bs
    | .error e => [TraceEv.raise e]

/-- One `send_vacancies` invocation (lines 138-157) for one chat: filter
against the sent set, record every filtered listing, then send in
batches of 5.  Result: the committed state and the event trace. -/
def send_vacancies (s : ChatState) (fetched : List Listing) : ChatState × List TraceEv :=
  let uniq := uniqueVacancies s fetched
  let r := recordLoop s uniq
  match r.2.2 with
  | some e => (r.1, (r.2.1.map (fun v => TraceEv.record v.id)) ++ [TraceEv.raise e])
  | Option.none =>
    (r.1, (r.2.1.map (fun v => TraceEv.record v.id)) ++ sendBatchesTrace (chunkEvery 5 uniq))

/-- The batches the invocation hands (or would hand) to the sender:
none at all when the recording loop raised. -/
def sentBatches (s : ChatState) (fetched : List Listing) : List (List Listing) :=
  match (recordLoop s (uniqueVacancies s fetched)).2.2 with
  | some _ => []
  | Option.none => chunkEvery 5 (uniqueVacancies s fetched)

/-- A sequence of delivery-loop invocations for one chat (successive
timer firings with the listings each fetch produced), collecting every
listing that passed the novelty filter — exactly those reaching the
formatter and the sender. -/
def runDeliveries : ChatState → List (List Listing) → ChatState × List Listing
  | s, [] => (s, [])
  | s, f :: fs =>
    let r := runDeliveries (send_vacancies s f).1 fs
    (r.1, uniqueVacancies s f ++ r.2)

/-! ## Summary responder: `daily_summary_command` (lines 160-189) -/

/-- Stable descending insertion by count: walk past entries with
strictly greater count, insert before the first entry with count
`≤` ours — so earlier-recorded entries stay first among equal counts. -/
def insertDesc (x : String × Nat) : List (String × Nat) → List (String × Nat)
  | [] => [x]
  | y :: ys => if x.2 < y.2 then y :: insertDesc x ys else x :: y :: ys

/-- Line 173: `sorted(d.items(), key=lambda item: item[1], reverse=True)`.
Python's sort is stable (also under `reverse=True`), and a stable sort on
one key is uniquely determined, so this insertion sort is its exact
embedding. -/
def sortDesc : List (String × Nat) → List (String × Nat)
  | [] => []
  | x :: xs => insertDesc x (sortDesc xs)

def summaryHeader : String :=
  "📊 *Ежедневная сводка о вакансиях (по убыванию количества):*\n\n"

/-- Lines 170-179: the rendered summary body. -/
def summaryText (counts : List (String × Nat)) : String :=
  let sorted := sortDesc counts
  if sorted.isEmpty then summaryHeader ++ "Сегодня вакансий не было."
  else
    summaryHeader ++
      String.join (sorted.map (fun p => "🏢 " ++ p.1 ++ ": " ++ toString p.2 ++ " вакансий\n"))

/-- Lines 182-183: `[summary[i:i + 4000] for i in range(0, len(summary),
4000)]` (Python slices strings by code points, as `String.data` does). -/
def summaryChunks (text : String) : List String :=
  (chunkEvery 4000 text.data).map (fun cs => String.mk cs)

/-! ## Chunking lemmas (shared by the batch loop and the summary) -/

theorem chunkEvery_flatten {α : Type} (n : Nat) (l : List α) :
    (chunkEvery n l).flatten = l := by
  suffices h : ∀ (m : Nat) (l : List α), l.length ≤ m → (chunkEvery n l).flatten = l from
    h l.length l (Nat.le_refl _)
  intro m
  induction m with
  | zero =>
    intro l hl
    cases l with
    | nil => rfl
    | cons x xs => simp at hl
  | succ m ih =>
    intro l hl
    cases l with
    | nil => rfl
    | cons x xs =>
      simp only [List.length_cons, Nat.add_le_add_iff_right] at hl
      rw [chunkEvery_cons]
      simp only [List.flatten_cons, List.cons_append]
      rw [ih (xs.drop (n - 1)) (by simp only [List.length_drop]; omega)]
      rw [List.take_append_drop]

theorem chunkEvery_mem_length {α : Type} (n : Nat) (hn : 1 ≤ n) (l : List α) :
    ∀ b ∈ chunkEvery n l, b.length ≤ n ∧ b ≠ [] := by
  suffices h : ∀ (m : Nat) (l : List α), l.length ≤ m →
      ∀ b ∈ chunkEvery n l, b.length ≤ n ∧ b ≠ [] from h l.length l (Nat.le_refl _)
  intro m
  induction m with
  | zero =>
    intro l hl b hb
    cases l with
    | nil => simp [chunkEvery, chunkEveryAux] at hb
    | cons x xs => simp at hl
  | succ m ih =>
    intro l hl b hb
    cases l with
    | nil => simp [chunkEvery, chunkEveryAux] at hb
    | cons x xs =>
      simp only [List.length_cons, Nat.add_le_add_iff_right] at hl
      rw [chunkEvery_cons] at hb
      rcases List.mem_cons.mp hb with hb | hb
      · subst hb
        constructor
        · simp only [List.length_cons, List.length_take]
          omega
        · simp
      · exact ih (xs.drop (n - 1)) (by simp only [List.length_drop]; omega) b hb

theorem chunkEvery_eq_nil_iff {α : Type} (n : Nat) (l : List α) :
    chunkEvery n l = [] ↔ l = [] := by
  cases l with
  | nil => simp [chunkEvery, chunkEveryAux]
  | cons x xs =>
    rw [chunkEvery_cons]
    simp

theorem chunkEvery_full_but_last {α : Type} (n : Nat) (hn : 1 ≤ n) (l : List α) :
    ∀ i, i + 1 < (chunkEvery n l).length → ((chunkEvery n l).getD i []).length = n := by
  suffices h : ∀ (m : Nat) (l : List α), l.length ≤ m →
      ∀ i, i + 1 < (chunkEvery n l).length → ((chunkEvery n l).getD i []).length = n from
    h l.length l (Nat.le_refl _)
  intro m
  induction m with
  | zero =>
    intro l hl i hi
    cases l with
    | nil => simp [chunkEvery, chunkEveryAux] at hi
    | cons x xs => simp at hl
  | succ m ih =>
    intro l hl i hi
    cases l with
    | nil => simp [chunkEvery, chunkEveryAux] at hi
    | cons x xs =>
      simp only [List.length_cons, Nat.add_le_add_iff_right] at hl
      rw [chunkEvery_cons] at hi ⊢
      cases i with
      | zero =>
        simp only [List.length_cons, Nat.lt_add_one_iff] at hi
        have hne : chunkEvery n (xs.drop (n - 1)) ≠ [] := by
          intro he
          rw [he] at hi
          simp at hi
        have hrest : xs.drop (n - 1) ≠ [] :=
          fun he => hne (by rw [he]; rfl)
        have hlen : n - 1 ≤ xs.length := by
          by_contra hgt
          push_neg at hgt
          exact hrest (List.drop_eq_nil_of_le (by omega))
        simp only [List.getD_cons_zero, List.length_cons, List.length_take]
        omega
      | succ i =>
        simp only [List.getD_cons_succ]
        simp only [List.length_cons, Nat.add_lt_add_iff_right] at hi
        exact ih (xs.drop (n - 1)) (by simp only [List.length_drop]; omega) i hi

theorem chunkEvery_cons' {α : Type} (n : Nat) (hn : 1 ≤ n) (l : List α) (h : l ≠ []) :
    chunkEvery n l = l.take n :: chunkEvery n (l.drop n) := by
  cases l with
  | nil => exact absurd rfl h
  | cons x xs =>
    rw [chunkEvery_cons]
    cases n with
    | zero => omega
    | succ k =>
      simp only [Nat.add_sub_cancel, List.take_succ_cons, List.drop_succ_cons]

theorem chunkEvery_map_length_8500 {α : Type} (l : List α) (h : l.length = 8500) :
    (chunkEvery 4000 l).map List.length = [4000, 4000, 500] := by
  have h1 : l ≠ [] := by intro e; rw [e] at h; simp at h
  rw [chunkEvery_cons' 4000 (by omega) l h1]
  have hd1 : (l.drop 4000).length = 4500 := by simp [List.length_drop, h]
  have h2 : l.drop 4000 ≠ [] := by intro e; rw [e] at hd1; simp at hd1
  rw [chunkEvery_cons' 4000 (by omega) _ h2]
  have hd2 : ((l.drop 4000).drop 4000).length = 500 := by
    rw [List.length_drop, hd1]
  have h3 : (l.drop 4000).drop 4000 ≠ [] := by intro e; rw [e] at hd2; simp at hd2
  rw [chunkEvery_cons' 4000 (by omega) _ h3]
  have hd3 : ((l.drop 4000).drop 4000).drop 4000 = [] := by
    rw [← List.length_eq_zero, List.length_drop, hd2]
  rw [hd3]
  simp only [chunkEvery, chunkEveryAux, List.map_cons, List.map_nil, List.length_take]
  rw [h, hd1, hd2]
  norm_num

theorem chunkEvery_map_length_7 {α : Type} (l : List α) (h : l.length = 7) :
    (chunkEvery 5 l).map List.length = [5, 2] := by
  have h1 : l ≠ [] := by intro e; rw [e] at h; simp at h
  rw [chunkEvery_cons' 5 (by omega) l h1]
  have hd1 : (l.drop 5).length = 2 := by simp [List.length_drop, h]
  have h2 : l.drop 5 ≠ [] := by intro e; rw [e] at hd1; simp at hd1
  rw [chunkEvery_cons' 5 (by omega) _ h2]
  have hd2 : (l.drop 5).drop 5 = [] := by
    rw [← List.length_eq_zero, List.length_drop, hd1]
  rw [hd2]
  simp only [chunkEvery, chunkEveryAux, List.map_cons, List.map_nil, List.length_take]
  rw [h, hd1]
  norm_num

/-- C8: the summary responder splits any rendered text into consecutive
contiguous slices of at most 4000 characters whose in-order
concatenation is the original text, and a text of length 8500 yields
exactly the three chunks 4000, 4000, 500. -/
theorem C8_summary_chunking (text : String) :
    (∀ c ∈ summaryChunks text, c.length ≤ 4000) ∧
    ((summaryChunks text).map String.data).flatten = text.data ∧
    (text.length = 8500 → (summaryChunks text).map String.length = [4000, 4000, 500]) := by
  refine ⟨?_, ?_, ?_⟩
  · intro c hc
    simp only [summaryChunks, List.mem_map] at hc
    obtain ⟨cs, hcs, rfl⟩ := hc
    exact (chunkEvery_mem_length 4000 (by omega) text.data cs hcs).1
  · simp only [summaryChunks, List.map_map]
    have he : (String.data ∘ fun cs => String.mk cs) = id := rfl
    rw [he, List.map_id]
    exact chunkEvery_flatten 4000 text.data
  · intro h
    simp only [summaryChunks, List.map_map]
    have he : (String.length ∘ fun cs => String.mk cs) = List.length := rfl
    rw [he]
    exact chunkEvery_map_length_8500 text.data h

/-- Witness for C8 on a concrete 8500-character summary text. -/
theorem C8_summary_chunking_witness :
    (summaryChunks (String.mk (List.replicate 8500 'a'))).map String.length =
      [4000, 4000, 500] :=
  (C8_summary_chunking (String.mk (List.replicate 8500 'a'))).2.2 (by
    have he : (String.mk (List.replicate 8500 'a')).length =
        (List.replicate 8500 'a').length := rfl
    rw [he, List.length_replicate])

/-! ## C9: summary ordering -/

theorem insertDesc_perm (x : String × Nat) (l : List (String × Nat)) :
    List.Perm (insertDesc x l) (x :: l) := by
  induction l with
  | nil => exact List.Perm.refl _
  | cons y ys ih =>
    by_cases h : x.2 < y.2
    · simp only [insertDesc, if_pos h]
      exact (List.Perm.cons y ih).trans (List.Perm.swap x y ys)
    · simp only [insertDesc, if_neg h]
      exact List.Perm.refl _

theorem sortDesc_perm (l : List (String × Nat)) : List.Perm (sortDesc l) l := by
  induction l with
  | nil => exact List.Perm.refl _
  | cons x xs ih =>
    exact (insertDesc_perm x (sortDesc xs)).trans (List.Perm.cons x ih)

theorem insertDesc_sorted (x : String × Nat) (l : List (String × Nat))
    (h : l.Pairwise (fun a b => b.2 ≤ a.2)) :
    (insertDesc x l).Pairwise (fun a b => b.2 ≤ a.2) := by
  induction l with
  | nil => simp [insertDesc]
  | cons y ys ih =>
    rcases List.pairwise_cons.mp h with ⟨hy, hys⟩
    by_cases hc : x.2 < y.2
    · simp only [insertDesc, if_pos hc]
      rw [List.pairwise_cons]
      refine ⟨?_, ih hys⟩
      intro b hb
      rcases List.mem_cons.mp ((insertDesc_perm x ys).mem_iff.mp hb) with rfl | hmem
      · exact Nat.le_of_lt hc
      · exact hy b hmem
    · simp only [insertDesc, if_neg hc]
      push_neg at hc
      rw [List.pairwise_cons]
      refine ⟨?_, h⟩
      intro b hb
      rcases List.mem_cons.mp hb with rfl | hb
      · exact hc
      · exact Nat.le_trans (hy b hb) hc

theorem sortDesc_sorted (l : List (String × Nat)) :
    (sortDesc l).Pairwise (fun a b => b.2 ≤ a.2) := by
  induction l with
  | nil => simp [sortDesc]
  | cons x xs ih => exact insertDesc_sorted x (sortDesc xs) ih

theorem insertDesc_filter (x : String × Nat) (l : List (String × Nat)) (n : Nat) :
    (insertDesc x l).filter (fun p => p.2 = n) =
      if x.2 = n then x :: l.filter (fun p => p.2 = n)
      else l.filter (fun p => p.2 = n) := by
  induction l with
  | nil =>
    simp only [insertDesc]
    by_cases h : x.2 = n
    · simp [List.filter_cons, h]
    · simp [List.filter_cons, h]
  | cons y ys ih =>
    by_cases hc : x.2 < y.2
    · simp only [insertDesc, if_pos hc]
      by_cases hy : y.2 = n
      · have hx : x.2 ≠ n := by omega
        simp [List.filter_cons, hy, hx, ih]
      · simp [List.filter_cons, hy, ih]
    · simp only [insertDesc, if_neg hc]
      by_cases hx : x.2 = n
      · simp [List.filter_cons, hx]
      · simp [List.filter_cons, hx]

theorem sortDesc_filter (l : List (String × Nat)) (n : Nat) :
    (sortDesc l).filter (fun p => p.2 = n) = l.filter (fun p => p.2 = n) := by
  induction l with
  | nil => rfl
  | cons x xs ih =>
    simp only [sortDesc]
    rw [insertDesc_filter]
    by_cases hx : x.2 = n
    · simp [List.filter_cons, hx, ih]
    · simp [List.filter_cons, hx, ih]

theorem bumpCount_keys (l : List (String × Nat)) (c : String) :
    (bumpCount l c).map Prod.fst =
      if c ∈ l.map Prod.fst then l.map Prod.fst else l.map Prod.fst ++ [c] := by
  induction l with
  | nil => simp [bumpCount]
  | cons y ys ih =>
    obtain ⟨k, m⟩ := y
    by_cases hk : k = c
    · subst hk
      simp [bumpCount]
    · simp only [bumpCount, if_neg hk, List.map_cons]
      rw [ih]
      have hck : c ≠ k := fun h => hk h.symm
      by_cases hm : c ∈ ys.map Prod.fst
      · simp [hm, hck]
      · simp [hm, hck]

/-- C9: the summary's (employer, count) sequence is the recorded counts
sorted descending by count, as a permutation; ties keep their relative
order (filtering either list to any fixed count gives identical
sequences, so equal-count employers appear in recording order); and the
recording itself appends a first-seen employer at the end while an
already-seen employer keeps its position — so list order is
first-recorded order. -/
theorem C9_snapshot_order (counts : List (String × Nat)) :
    List.Perm (sortDesc counts) counts ∧
    (sortDesc counts).Pairwise (fun a b => b.2 ≤ a.2) ∧
    (∀ n, (sortDesc counts).filter (fun p => p.2 = n) =
      counts.filter (fun p => p.2 = n)) ∧
    (∀ (l : List (String × Nat)) (c : String),
      (bumpCount l c).map Prod.fst =
        if c ∈ l.map Prod.fst then l.map Prod.fst else l.map Prod.fst ++ [c]) :=
  ⟨sortDesc_perm counts, sortDesc_sorted counts, fun n => sortDesc_filter counts n,
    fun l c => bumpCount_keys l c⟩

/-- Witness for C9 on the spec's own example {A:3, B:5, C:5} with B
recorded before C: the snapshot is [B, C, A]. -/
theorem C9_snapshot_order_witness :
    sortDesc [("A", 3), ("B", 5), ("C", 5)] = [("B", 5), ("C", 5), ("A", 3)] ∧
    (sortDesc [("A", 3), ("B", 5), ("C", 5)]).filter (fun p => p.2 = 5) =
      [("A", 3), ("B", 5), ("C", 5)].filter (fun p => p.2 = 5) :=
  ⟨rfl, (C9_snapshot_order [("A", 3), ("B", 5), ("C", 5)]).2.2.1 5⟩

/-! ## C5: batch structure of the delivery loop -/

/-- The string `format_vacancy` produces when it succeeds. -/
def formatOkStr (v : PyVal) : String :=
  match format_vacancy v with
  | .ok s => s
  | .error _ => ""

theorem formatAll_ok :
    ∀ (ps : List PyVal), (∀ p ∈ ps, ∃ t, format_vacancy p = .ok t) →
      formatAll ps = .ok (ps.map formatOkStr) := by
  intro ps
  induction ps with
  | nil => intro _; rfl
  | cons p ps ih =>
    intro h
    obtain ⟨t, ht⟩ := h p (List.mem_cons_self p ps)
    have hfk : formatOkStr p = t := by simp [formatOkStr, ht]
    simp only [formatAll, ht, ih (fun q hq => h q (List.mem_cons_of_mem _ hq)),
      List.map_cons, hfk]

theorem sendBatchesTrace_ok :
    ∀ (bs : List (List Listing)),
      (∀ b ∈ bs, ∀ v ∈ b, ∃ t, format_vacancy v.body = .ok t) →
      sendBatchesTrace bs =
        (bs.map (fun b =>
          [TraceEv.send (String.intercalate "\n\n" (b.map (fun v => formatOkStr v.body))),
            TraceEv.sleep 2])).flatten := by
  intro bs
  induction bs with
  | nil => intro _; rfl
  | cons b bs ih =>
    intro h
    have hb : formatAll (b.map Listing.body) = .ok ((b.map Listing.body).map formatOkStr) :=
      formatAll_ok _ (by
        intro p hp
        obtain ⟨v, hv, rfl⟩ := List.mem_map.mp hp
        exact h b (List.mem_cons_self _ _) v hv)
    have hbm : batchMessage b =
        .ok (String.intercalate "\n\n" (b.map (fun v => formatOkStr v.body))) := by
      simp [batchMessage, hb, List.map_map]
      rfl
    simp only [sendBatchesTrace, hbm, List.map_cons, List.flatten_cons]
    rw [ih (fun b2 hb2 => h b2 (List.mem_cons_of_mem _ hb2))]
    rfl

/-- C5: the delivery loop sends exactly the novelty-filtered listings,
in fetch order, as consecutive batches of 5 (last batch possibly
smaller but never empty); each batch becomes one message joining the
formatted listings with a blank line, followed by the fixed 2-unit
pause; and 7 new listings give batches of sizes 5 and 2 — hence exactly
2 send calls. -/
theorem C5_batch_delivery (s : ChatState) (fetched : List Listing)
    (hfmt : ∀ v ∈ uniqueVacancies s fetched, ∃ t, format_vacancy v.body = .ok t) :
    List.Sublist (uniqueVacancies s fetched) fetched ∧
    (chunkEvery 5 (uniqueVacancies s fetched)).flatten = uniqueVacancies s fetched ∧
    (∀ b ∈ chunkEvery 5 (uniqueVacancies s fetched), b.length ≤ 5 ∧ b ≠ []) ∧
    (∀ i, i + 1 < (chunkEvery 5 (uniqueVacancies s fetched)).length →
      ((chunkEvery 5 (uniqueVacancies s fetched)).getD i []).length = 5) ∧
    sendBatchesTrace (chunkEvery 5 (uniqueVacancies s fetched)) =
      ((chunkEvery 5 (uniqueVacancies s fetched)).map (fun b =>
        [TraceEv.send (String.intercalate "\n\n" (b.map (fun v => formatOkStr v.body))),
          TraceEv.sleep 2])).flatten ∧
    ((uniqueVacancies s fetched).length = 7 →
      (chunkEvery 5 (uniqueVacancies s fetched)).map List.length = [5, 2]) := by
  refine ⟨List.filter_sublist fetched, chunkEvery_flatten 5 _,
    chunkEvery_mem_length 5 (by omega) _, chunkEvery_full_but_last 5 (by omega) _,
    ?_, fun h => chunkEvery_map_length_7 _ h⟩
  apply sendBatchesTrace_ok
  intro b hb v hv
  apply hfmt
  have hm : v ∈ (chunkEvery 5 (uniqueVacancies s fetched)).flatten :=
    List.mem_flatten.mpr ⟨b, hb, hv⟩
  rwa [chunkEvery_flatten] at hm

/-- Seven concrete fetched listings with distinct ids and empty bodies. -/
def demoFetch : List Listing :=
  [⟨"1", PyVal.dict []⟩, ⟨"2", PyVal.dict []⟩, ⟨"3", PyVal.dict []⟩,
   ⟨"4", PyVal.dict []⟩, ⟨"5", PyVal.dict []⟩, ⟨"6", PyVal.dict []⟩,
   ⟨"7", PyVal.dict []⟩]

/-- Witness for C5: a fresh chat receiving 7 new listings produces
batches of sizes 5 and 2. -/
theorem C5_batch_delivery_witness :
    (chunkEvery 5 (uniqueVacancies initialChatState demoFetch)).map List.length = [5, 2] := by
  have he : uniqueVacancies initialChatState demoFetch = demoFetch := rfl
  refine (C5_batch_delivery initialChatState demoFetch ?_).2.2.2.2.2 (by rw [he]; rfl)
  intro v hv
  rw [he] at hv
  have hb : v.body = PyVal.dict [] := by fin_cases hv <;> rfl
  rw [hb]
  exact ⟨_, rfl⟩

/-! ## State lemmas for the delivery loop (C1, C2, C10) -/

theorem addId_mem_of_mem (l : List String) (y x : String) (h : x ∈ l) : x ∈ addId l y := by
  by_cases hy : y ∈ l
  · simpa [addId, hy] using h
  · simp only [addId, if_neg hy]
    exact List.mem_append_left _ h

theorem addId_self (l : List String) (id : String) : id ∈ addId l id := by
  by_cases hy : id ∈ l
  · simp only [addId, if_pos hy]
    exact hy
  · simp [addId, hy]

theorem addId_mem_iff (l : List String) (y x : String) :
    x ∈ addId l y ↔ x ∈ l ∨ x = y := by
  by_cases h : y ∈ l
  · simp only [addId, if_pos h]
    constructor
    · exact Or.inl
    · rintro (hx | rfl)
      · exact hx
      · exact h
  · simp [addId, if_neg h]

theorem addId_not_mem_length (l : List String) (id : String) (h : id ∉ l) :
    (addId l id).length = l.length + 1 := by
  simp [addId, h]

theorem recordLoop_sentIds_mono :
    ∀ (vs : List Listing) (s : ChatState) (x : String),
      x ∈ s.sentIds → x ∈ (recordLoop s vs).1.sentIds := by
  intro vs
  induction vs with
  | nil => intro s x h; exact h
  | cons v vs ih =>
    intro s x h
    simp only [recordLoop]
    cases hc : companyOf v with
    | error e => exact addId_mem_of_mem _ _ _ h
    | ok c => exact ih _ _ (addId_mem_of_mem _ _ _ h)

theorem send_vacancies_fst (s : ChatState) (f : List Listing) :
    (send_vacancies s f).1 = (recordLoop s (uniqueVacancies s f)).1 := by
  simp only [send_vacancies]
  cases h : (recordLoop s (uniqueVacancies s f)).2.2 <;> simp [h]

theorem send_vacancies_sentIds_mono (s : ChatState) (f : List Listing) (x : String)
    (h : x ∈ s.sentIds) : x ∈ (send_vacancies s f).1.sentIds := by
  rw [send_vacancies_fst]
  exact recordLoop_sentIds_mono _ _ _ h

theorem mem_uniqueVacancies (s : ChatState) (f : List Listing) (v : Listing)
    (h : v ∈ uniqueVacancies s f) : v ∈ f ∧ v.id ∉ s.sentIds := by
  have hm := List.mem_filter.mp h
  exact ⟨hm.1, of_decide_eq_true hm.2⟩

/-- C1: once a listing id is in a chat's sent set, no later
delivery-loop invocation lets a listing with that id through the
novelty filter — so none is formatted or sent again — whatever the
later fetches return. -/
theorem C1_no_redelivery (s : ChatState) (fss : List (List Listing)) (id : String)
    (h : id ∈ s.sentIds) :
    ∀ v ∈ (runDeliveries s fss).2, v.id ≠ id := by
  revert h
  induction fss generalizing s with
  | nil =>
    intro h v hv
    simp [runDeliveries] at hv
  | cons f fs ih =>
    intro h v hv
    simp only [runDeliveries] at hv
    rcases List.mem_append.mp hv with hv | hv
    · intro he
      exact (mem_uniqueVacancies s f v hv).2 (he ▸ h)
    · exact ih ((send_vacancies s f).1) (send_vacancies_sentIds_mono s f id h) v hv

/-- Witness for C1: a chat that already has id "7" recorded receives a
fetch with ids "7" and "8"; only "8" goes through. -/
theorem C1_no_redelivery_witness :
    (runDeliveries ⟨["7"], []⟩ [[⟨"7", PyVal.dict []⟩, ⟨"8", PyVal.dict []⟩]]).2 =
      [⟨"8", PyVal.dict []⟩] ∧
    (Listing.mk "8" (PyVal.dict [])).id ≠ "7" := by
  have hr : (runDeliveries ⟨["7"], []⟩ [[⟨"7", PyVal.dict []⟩, ⟨"8", PyVal.dict []⟩]]).2 =
      [⟨"8", PyVal.dict []⟩] := rfl
  refine ⟨hr, ?_⟩
  exact C1_no_redelivery ⟨["7"], []⟩ [[⟨"7", PyVal.dict []⟩, ⟨"8", PyVal.dict []⟩]] "7"
    (by decide) (Listing.mk "8" (PyVal.dict []))
    (by rw [hr]; exact List.mem_singleton.mpr rfl)

/-! ## C2: counts total versus sent-set cardinality -/

theorem bumpCount_sum (l : List (String × Nat)) (c : String) :
    sumCounts (bumpCount l c) = sumCounts l + 1 := by
  induction l with
  | nil => rfl
  | cons y ys ih =>
    obtain ⟨k, m⟩ := y
    by_cases hk : k = c
    · simp only [bumpCount, if_pos hk, sumCounts, List.map_cons, List.sum_cons]
      omega
    · simp only [bumpCount, if_neg hk, sumCounts, List.map_cons, List.sum_cons]
      simp only [sumCounts] at ih
      omega

theorem recordLoop_counts (vs : List Listing) :
    ∀ (s : ChatState),
      (vs.map Listing.id).Nodup →
      (∀ v ∈ vs, v.id ∉ s.sentIds) →
      (∀ v ∈ vs, ∃ c, companyOf v = .ok c) →
      (recordLoop s vs).1.sentIds.length = s.sentIds.length + vs.length ∧
      sumCounts (recordLoop s vs).1.counts = sumCounts s.counts + vs.length ∧
      (recordLoop s vs).2.2 = Option.none := by
  induction vs with
  | nil => intro s _ _ _; exact ⟨rfl, rfl, rfl⟩
  | cons v vs ih =>
    intro s hnd hmem hok
    obtain ⟨c, hc⟩ := hok v (List.mem_cons_self _ _)
    simp only [recordLoop, hc]
    have hvid : v.id ∉ s.sentIds := hmem v (List.mem_cons_self _ _)
    simp only [List.map_cons, List.nodup_cons] at hnd
    obtain ⟨hnotin, hnd2⟩ := hnd
    have hmem2 : ∀ w ∈ vs, w.id ∉ addId s.sentIds v.id := by
      intro w hw hin
      rcases (addId_mem_iff _ _ _).mp hin with hin | heq
      · exact hmem w (List.mem_cons_of_mem _ hw) hin
      · exact hnotin (heq ▸ List.mem_map_of_mem Listing.id hw)
    have hok2 : ∀ w ∈ vs, ∃ c2, companyOf w = .ok c2 :=
      fun w hw => hok w (List.mem_cons_of_mem _ hw)
    have hih := ih ⟨addId s.sentIds v.id, bumpCount s.counts c⟩ hnd2 hmem2 hok2
    refine ⟨?_, ?_, hih.2.2⟩
    · rw [hih.1]
      rw [addId_not_mem_length s.sentIds v.id hvid]
      simp only [List.length_cons]
      omega
    · rw [hih.2.1]
      rw [bumpCount_sum]
      simp only [List.length_cons]
      omega

theorem C2_sum_eq_card_aux :
    ∀ (fss : List (List Listing)) (s : ChatState),
      (∀ f ∈ fss, (f.map Listing.id).Nodup) →
      (∀ f ∈ fss, ∀ v ∈ f, ∃ c, companyOf v = .ok c) →
      sumCounts s.counts = s.sentIds.length →
      sumCounts (runDeliveries s fss).1.counts =
        (runDeliveries s fss).1.sentIds.length := by
  intro fss
  induction fss with
  | nil => intro s _ _ h; exact h
  | cons f fs ih =>
    intro s hnd hok hinv
    simp only [runDeliveries]
    apply ih
    · intro f2 hf2
      exact hnd f2 (List.mem_cons_of_mem _ hf2)
    · intro f2 hf2
      exact hok f2 (List.mem_cons_of_mem _ hf2)
    · rw [send_vacancies_fst]
      have hndu : ((uniqueVacancies s f).map Listing.id).Nodup := by
        have hsub : List.Sublist ((uniqueVacancies s f).map Listing.id)
            (f.map Listing.id) := (List.filter_sublist f).map Listing.id
        exact (hnd f (List.mem_cons_self _ _)).sublist hsub
      have hmemu : ∀ v ∈ uniqueVacancies s f, v.id ∉ s.sentIds :=
        fun v hv => (mem_uniqueVacancies s f v hv).2
      have hoku : ∀ v ∈ uniqueVacancies s f, ∃ c, companyOf v = .ok c :=
        fun v hv => hok f (List.mem_cons_self _ _) v (mem_uniqueVacancies s f v hv).1
      obtain ⟨h1, h2, _⟩ := recordLoop_counts (uniqueVacancies s f) s hndu hmemu hoku
      rw [h1, h2, hinv]

/-- A concrete listing with id "1" and employer name "Acme". -/
def dupListing : Listing :=
  ⟨"1", PyVal.dict [("employer", PyVal.dict [("name", PyVal.str "Acme")])]⟩

/-- C2 counterexample: a fetch result carrying the same listing twice
lets both copies through the (pre-computed) novelty filter; the set
absorbs the second id but the employer bucket is bumped twice, so the
counts total 2 against a sent-set cardinality of 1. -/
theorem C2_duplicate_counterexample :
    sumCounts (runDeliveries initialChatState [[dupListing, dupListing]]).1.counts = 2 ∧
    (runDeliveries initialChatState [[dupListing, dupListing]]).1.sentIds.length = 1 ∧
    (2 : Nat) ≠ 1 :=
  ⟨rfl, rfl, by decide⟩

/-- C2 (amended): after any sequence of delivery-loop invocations whose
fetch results carry pairwise-distinct ids and well-formed employer
fields, the counts total equals the sent-set cardinality. -/
theorem C2_sum_eq_card (fss : List (List Listing))
    (hnd : ∀ f ∈ fss, (f.map Listing.id).Nodup)
    (hok : ∀ f ∈ fss, ∀ v ∈ f, ∃ c, companyOf v = .ok c) :
    sumCounts (runDeliveries initialChatState fss).1.counts =
      (runDeliveries initialChatState fss).1.sentIds.length :=
  C2_sum_eq_card_aux fss initialChatState hnd hok rfl

/-- Witness for the amended C2: two distinct listings of one employer. -/
theorem C2_sum_eq_card_witness :
    sumCounts (runDeliveries initialChatState
        [[dupListing, ⟨"2", dupListing.body⟩]]).1.counts =
      (runDeliveries initialChatState
        [[dupListing, ⟨"2", dupListing.body⟩]]).1.sentIds.length := by
  apply C2_sum_eq_card
  · intro f hf
    simp only [List.mem_singleton] at hf
    subst hf
    decide
  · intro f hf v hv
    simp only [List.mem_singleton] at hf
    subst hf
    fin_cases hv <;> exact ⟨"Acme", rfl⟩

/-! ## C10: recording precedes sending -/

def isRecordEv : TraceEv → Bool
  | .record _ => true
  | _ => false

/-- Once a non-record event appears in a trace, no record event follows. -/
def recordsFirst (t : List TraceEv) : Bool :=
  (t.dropWhile isRecordEv).all (fun e => !isRecordEv e)

theorem dropWhile_records (recs : List Listing) (rest : List TraceEv) :
    ((recs.map (fun v => TraceEv.record v.id)) ++ rest).dropWhile isRecordEv =
      rest.dropWhile isRecordEv := by
  induction recs with
  | nil => rfl
  | cons v recs ih =>
    simp only [List.map_cons, List.cons_append, List.dropWhile_cons, isRecordEv, if_true]
    exact ih

theorem sendBatchesTrace_no_record (bs : List (List Listing)) :
    (sendBatchesTrace bs).all (fun e => !isRecordEv e) = true := by
  induction bs with
  | nil => rfl
  | cons b bs ih =>
    simp only [sendBatchesTrace]
    cases hb : batchMessage b with
    | ok m =>
      simp only [List.all_cons, ih]
      rfl
    | error e => rfl

theorem all_not_record_dropWhile (l : List TraceEv)
    (h : l.all (fun e => !isRecordEv e) = true) : l.dropWhile isRecordEv = l := by
  cases l with
  | nil => rfl
  | cons e es =>
    have he : isRecordEv e = false := by
      have hh := (List.all_eq_true.mp h) e (List.mem_cons_self _ _)
      simpa using hh
    simp [List.dropWhile_cons, he]

theorem recordsFirst_append (recs : List Listing) (rest : List TraceEv)
    (h : rest.all (fun e => !isRecordEv e) = true) :
    recordsFirst ((recs.map (fun v => TraceEv.record v.id)) ++ rest) = true := by
  unfold recordsFirst
  rw [dropWhile_records, all_not_record_dropWhile rest h]
  exact h

theorem send_vacancies_snd_err (s : ChatState) (f : List Listing) (e : String)
    (h : (recordLoop s (uniqueVacancies s f)).2.2 = some e) :
    (send_vacancies s f).2 =
      ((recordLoop s (uniqueVacancies s f)).2.1.map (fun v => TraceEv.record v.id)) ++
        [TraceEv.raise e] := by
  simp only [send_vacancies]
  rw [h]

theorem send_vacancies_snd_ok (s : ChatState) (f : List Listing)
    (h : (recordLoop s (uniqueVacancies s f)).2.2 = Option.none) :
    (send_vacancies s f).2 =
      ((recordLoop s (uniqueVacancies s f)).2.1.map (fun v => TraceEv.record v.id)) ++
        sendBatchesTrace (chunkEvery 5 (uniqueVacancies s f)) := by
  simp only [send_vacancies]
  rw [h]

theorem recordLoop_complete :
    ∀ (vs : List Listing) (s : ChatState), (recordLoop s vs).2.2 = Option.none →
      ∀ v ∈ vs, v.id ∈ (recordLoop s vs).1.sentIds := by
  intro vs
  induction vs with
  | nil => intro s _ v hv; simp at hv
  | cons w vs ih =>
    intro s hnone v hv
    simp only [recordLoop] at hnone ⊢
    cases hc : companyOf w with
    | error e =>
      rw [hc] at hnone
      simp at hnone
    | ok c =>
      rw [hc] at hnone
      rcases List.mem_cons.mp hv with rfl | hv
      · exact recordLoop_sentIds_mono vs _ _ (addId_self _ _)
      · exact ih _ hnone v hv

/-- C10: in each invocation every record event precedes every other
event of the trace; every listing of every batch handed to the sender is
already in the committed sent set; and concretely a listing can end in
the sent set while its only send attempt is abandoned (a non-flood
failure makes the retrying sender drop the message, with the state
already committed). -/
theorem C10_record_precedes_send (s : ChatState) (fetched : List Listing) :
    recordsFirst (send_vacancies s fetched).2 = true ∧
    (∀ b ∈ sentBatches s fetched, ∀ v ∈ b, v.id ∈ (send_vacancies s fetched).1.sentIds) ∧
    "1" ∈ (send_vacancies initialChatState [⟨"1", PyVal.dict []⟩]).1.sentIds ∧
    (send_message_with_retry [some "Bad Request: chat not found"]).2.2 =
      RetryOutcome.dropped "Bad Request: chat not found" := by
  refine ⟨?_, ?_, by decide, by decide⟩
  · cases hr : (recordLoop s (uniqueVacancies s fetched)).2.2 with
    | some e =>
      rw [send_vacancies_snd_err s fetched e hr]
      exact recordsFirst_append _ _ rfl
    | none =>
      rw [send_vacancies_snd_ok s fetched hr]
      exact recordsFirst_append _ _ (sendBatchesTrace_no_record _)
  · intro b hb v hv
    rw [send_vacancies_fst]
    unfold sentBatches at hb
    cases hr : (recordLoop s (uniqueVacancies s fetched)).2.2 with
    | some e =>
      rw [hr] at hb
      simp at hb
    | none =>
      rw [hr] at hb
      simp only at hb
      have hm : v ∈ uniqueVacancies s fetched := by
        have hfl := List.mem_flatten.mpr ⟨b, hb, hv⟩
        rwa [chunkEvery_flatten] at hfl
      exact recordLoop_complete _ s hr v hm

/-- Witness for C10 on a concrete invocation with seven fresh listings. -/
theorem C10_record_precedes_send_witness :
    recordsFirst (send_vacancies initialChatState demoFetch).2 = true :=
  (C10_record_precedes_send initialChatState demoFetch).1

end Bot
